import Mathlib

/-!
# Verification of the weekly Reddit post scheduler

Shallow embedding of `src/scheduler.py` (class `WeekScheduler` and the
module-level `schedule_week_posts`) together with the data model of
`src/schemas.py` (`RedditPost`).

Modelling conventions:
* A Python `datetime` is modelled as a `DateTime` record of days-since-epoch,
  hour, minute and second (microseconds, which the code only ever zeroes or
  copies along, are dropped).  Epoch day 0 is taken to be a Monday, so
  Python's `datetime.weekday()` (Monday = 0) is `days % 7`.
* Randomness (`random.shuffle`, `random.randint`, `random.choice`) is made
  explicit: the shuffled processing order is an arbitrary permutation of the
  input batch supplied by the environment, and each processed post carries a
  `StepRand` record holding the shuffled day order, the drawn minutes and the
  chosen slot for both the normal and the fallback placement path.
* Python `set`s become `Finset String`; `len` of a set is `Finset.card`.
* A missing `post.timestamp` (`None`) is `Option.none`; `datetime.isoformat`
  followed by `datetime.fromisoformat` round-trips, so timestamps are kept as
  `DateTime` values and the final sort's parse step succeeds exactly when
  every timestamp is present (`isSome`), which `schedulePosts` models by
  returning `Option` (`none` would be the `TypeError` raised by
  `fromisoformat(None)`).
-/

namespace RedditScheduler

/-- Model of a Python `datetime`: days since an epoch whose day 0 is a
Monday, plus hour, minute and second. -/
structure DateTime where
  days : ℕ
  hour : ℕ
  minute : ℕ
  second : ℕ
deriving DecidableEq, Repr

/-- Well-formedness of a `datetime` (Python enforces these bounds on
construction). -/
def DateTime.Valid (t : DateTime) : Prop :=
  t.hour < 24 ∧ t.minute < 60 ∧ t.second < 60

/-- Linearisation of a datetime into seconds, used as the comparison key
(for valid datetimes this agrees with Python's datetime ordering). -/
def DateTime.toSec (t : DateTime) : ℕ :=
  ((t.days * 24 + t.hour) * 60 + t.minute) * 60 + t.second

/-- `t + timedelta(days=d)`. -/
def DateTime.addDays (t : DateTime) (d : ℕ) : DateTime :=
  { t with days := t.days + d }

/-- `t.replace(hour=h, minute=m)` — keeps the day and the second. -/
def DateTime.replaceHM (t : DateTime) (h m : ℕ) : DateTime :=
  { t with hour := h, minute := m }

/-- `t.replace(hour=h, minute=m, second=s, microsecond=0)`. -/
def DateTime.replaceHMS (t : DateTime) (h m s : ℕ) : DateTime :=
  { t with hour := h, minute := m, second := s }

/-- Python `t.weekday()` (Monday = 0) under the epoch convention above. -/
def DateTime.weekday (t : DateTime) : ℕ := t.days % 7

/-- Midnight of the calendar day containing `t`. -/
def DateTime.startOfDay (t : DateTime) : DateTime :=
  ⟨t.days, 0, 0, 0⟩

/-- `RedditPost` from `src/schemas.py`: title, body, subreddit, author_id,
keyword_id, and an optional timestamp (set by the scheduler). -/
structure RedditPost where
  title : String
  body : String
  subreddit : String
  author_id : String
  keyword_id : String
  timestamp : Option DateTime := none
deriving DecidableEq, Repr

/-- A post with its timestamp field cleared — used to state that the
scheduler changes nothing but the timestamp. -/
def eraseTs (p : RedditPost) : RedditPost :=
  { p with timestamp := none }

/-- The random draws consumed while processing one post inside
`schedule_posts`: the shuffled day order `attempts`, the three minutes drawn
by `_get_posting_times` and the slot picked by `random.choice` on the normal
path, and likewise (`fmins`, `fslot`) for the fallback path (which calls
`_get_posting_times` and `random.choice` afresh). -/
structure StepRand where
  attempts : List (Fin 7)
  minutes : Fin 3 → ℕ
  slot : Fin 3
  fmins : Fin 3 → ℕ
  fslot : Fin 3

/-- `WeekScheduler._get_posting_times`: the three peak slots (07:xx, 12:xx,
19:xx) of day `day` of the week anchored at `start`; the minutes are the
random draws `minutes 0, minutes 1, minutes 2`. `replace` keeps the second
(and microsecond) of the base date, i.e. of `start`. -/
def getPostingTimes (start : DateTime) (day : Fin 7) (minutes : Fin 3 → ℕ) :
    List DateTime :=
  let base := start.addDays day.val
  [base.replaceHM 7 (minutes 0), base.replaceHM 12 (minutes 1),
   base.replaceHM 19 (minutes 2)]

/-- `random.choice(posting_times)`: pick slot number `slot` of the three. -/
def chooseTime (start : DateTime) (day : Fin 7) (minutes : Fin 3 → ℕ)
    (slot : Fin 3) : DateTime :=
  (getPostingTimes start day minutes).getD slot.val ⟨0, 0, 0, 0⟩

/-- Python's `min(x :: l, key=key)`: fold keeping the FIRST element attaining
the minimal key (`<` is strict, so later ties never replace the incumbent). -/
def pyMinBy {α : Type} (key : α → ℕ) (x : α) (l : List α) : α :=
  l.foldl (fun best d => if key d < key best then d else best) x

/-- The call-scoped working sets of one `schedule_posts` run: the week's used
keyword set and, per day, the set of subreddits already used that day. -/
structure SchedState where
  usedKeywords : Finset String
  dailySubreddits : Fin 7 → Finset String

/-- The fresh state built at the top of `schedule_posts`:
`used_keywords = set()`, `daily_subreddits = {day: set() for day in range(7)}`. -/
def SchedState.initial : SchedState :=
  ⟨∅, fun _ => ∅⟩

/-- `min(range(7), key=lambda d: len(daily_subreddits[d]))`: the first day
index (in order 0,1,…,6) with the fewest subreddits used. -/
def minConflictDay (daily : Fin 7 → Finset String) : Fin 7 :=
  pyMinBy (fun d => (daily d).card) 0 [1, 2, 3, 4, 5, 6]

/-- The day search of the loop body: the first day in the shuffled `attempts`
order whose used-subreddit set does not contain the post's subreddit. -/
def findFreeDay (daily : Fin 7 → Finset String) (sub : String)
    (attempts : List (Fin 7)) : Option (Fin 7) :=
  attempts.find? (fun d => decide (sub ∉ daily d))

/-- The placement action shared by the normal and the fallback path: set the
post's timestamp to the chosen slot of `day`, add the subreddit to that day's
set, add the keyword to the week's set, append the post to the output. -/
def placePost (start : DateTime) (st : SchedState) (acc : List RedditPost)
    (p : RedditPost) (day : Fin 7) (minutes : Fin 3 → ℕ) (slot : Fin 3) :
    SchedState × List RedditPost :=
  let ts := chooseTime start day minutes slot
  (⟨insert p.keyword_id st.usedKeywords,
    Function.update st.dailySubreddits day
      (insert p.subreddit (st.dailySubreddits day))⟩,
   acc ++ [{ p with timestamp := some ts }])

/-- One iteration of the `for post in posts_to_schedule` loop of
`schedule_posts` (the `post_counter` variable is incremented but never read,
so it is not modelled).  Skip on keyword collision; otherwise place on the
first free day of the shuffled `attempts` order; otherwise the fallback
re-checks `post.keyword_id not in used_keywords` (always true here) and
places on the least-conflict day. -/
def scheduleStep (start : DateTime) (s : SchedState × List RedditPost)
    (pr : RedditPost × StepRand) : SchedState × List RedditPost :=
  let st := s.1
  let acc := s.2
  let p := pr.1
  let r := pr.2
  if p.keyword_id ∈ st.usedKeywords then (st, acc)
  else
    match findFreeDay st.dailySubreddits p.subreddit r.attempts with
    | some day => placePost start st acc p day r.minutes r.slot
    | none =>
        if p.keyword_id ∉ st.usedKeywords then
          placePost start st acc p (minConflictDay st.dailySubreddits)
            r.fmins r.fslot
        else (st, acc)

/-- The whole scheduling loop of `schedule_posts`, starting from the fresh
state.  `prs` is the shuffled copy of the input batch (`posts.copy()` then
`random.shuffle`), paired with each step's random draws. -/
def schedulePostsCore (start : DateTime) (prs : List (RedditPost × StepRand)) :
    SchedState × List RedditPost :=
  prs.foldl (scheduleStep start) (SchedState.initial, [])

/-- Sort key of the final `scheduled_posts.sort`: the parsed timestamp
(`datetime.fromisoformat(x.timestamp)`), linearised to seconds.  Only applied
to posts whose timestamp is present. -/
def tsKey (p : RedditPost) : ℕ :=
  (p.timestamp.map DateTime.toSec).getD 0

/-- `WeekScheduler.schedule_posts`: run the loop, then sort ascending by
timestamp.  The parse of each timestamp fails (Python raises) iff some
timestamp is `None`, which the `Option` result captures. -/
def schedulePosts (start : DateTime) (prs : List (RedditPost × StepRand)) :
    Option (List RedditPost) :=
  let out := (schedulePostsCore start prs).2
  if out.all (fun p => p.timestamp.isSome) then
    some (out.mergeSort (fun a b => tsKey a ≤ tsKey b))
  else none

/-- The default-start computation of `WeekScheduler.__init__`:
`days_until_monday = (7 - today.weekday()) % 7`, replaced by 7 when zero;
anchor = `today + that` with time 09:00:00 (microseconds zeroed). -/
def nextMondayStart (today : DateTime) : DateTime :=
  let daysUntilMonday := (7 - today.weekday) % 7
  let d := if daysUntilMonday = 0 then 7 else daysUntilMonday
  (today.addDays d).replaceHMS 9 0 0

/-- One entry of the per-day schedule map `self.schedule` (a Python dict; the
validation pass reads its `subreddit` and `keyword_id` keys — the remaining
display-only keys read by the summary do not affect any verified property
and are omitted). -/
structure SchedEntry where
  subreddit : String
  keyword_id : String
deriving DecidableEq, Repr

/-- The `WeekScheduler` object: its `start_date` and its per-day schedule
map `self.schedule`. -/
structure WeekScheduler where
  start_date : DateTime
  schedule : Fin 7 → List SchedEntry

/-- `WeekScheduler.__init__`: with an explicit `start_date` use it, otherwise
the next-Monday default; `self.schedule = {day: [] for day in range(7)}`. -/
def WeekScheduler.make (start : Option DateTime) (today : DateTime) :
    WeekScheduler :=
  { start_date :=
      match start with
      | some s => s
      | none => nextMondayStart today,
    schedule := fun _ => [] }

/-- `WeekScheduler.schedule_posts` as a method: it reads `self.start_date`
(through `_get_posting_times`) and assigns to no attribute of `self`, so the
object comes back unchanged alongside the returned list. -/
def WeekScheduler.schedulePostsM (w : WeekScheduler)
    (prs : List (RedditPost × StepRand)) :
    Option (List RedditPost) × WeekScheduler :=
  (schedulePosts w.start_date prs, w)

/-- `WeekScheduler.validate_schedule`: per day, flag duplicate subreddits
(`len(day_subreddits) != len(set(day_subreddits))`), then flag every keyword
already seen this week; returns `(len(violations) == 0, violations)`. -/
def WeekScheduler.validateSchedule (w : WeekScheduler) : Bool × List String :=
  let res := (List.finRange 7).foldl
    (fun (acc : List String × Finset String) dayIdx =>
      let dayPosts := w.schedule dayIdx
      let subs := dayPosts.map (fun p => p.subreddit)
      let vs1 :=
        if subs.length ≠ subs.dedup.length then
          acc.1 ++ ["Day " ++ toString dayIdx.val ++ ": Multiple posts to " ++
            toString (subs.dedup.filter (fun sr => 1 < subs.count sr))]
        else acc.1
      dayPosts.foldl
        (fun (acc2 : List String × Finset String) post =>
          (if post.keyword_id ∈ acc2.2 then
            acc2.1 ++ ["Keyword \x27" ++ post.keyword_id ++
              "\x27 used multiple times in the week"]
          else acc2.1,
           insert post.keyword_id acc2.2))
        (vs1, acc.2))
    ([], ∅)
  (res.1.length = 0, res.1)

/-- The total reported at the bottom of `WeekScheduler.get_schedule_summary`:
`sum(len(self.schedule[day]) for day in range(7))`. -/
def WeekScheduler.summaryTotal (w : WeekScheduler) : ℕ :=
  ((List.finRange 7).map (fun d => (w.schedule d).length)).sum

/-- Number of posts (in processing order) whose keyword collided with an
earlier-processed post, starting from a given already-seen keyword set. -/
def collidedFrom (seen : Finset String) : List String → ℕ
  | [] => 0
  | k :: ks => (if k ∈ seen then 1 else 0) + collidedFrom (insert k seen) ks

/-- The fallback branch of `schedule_posts` is never taken during the run:
at each step, either the keyword is a duplicate (post skipped) or the day
search succeeds.  The state is advanced exactly as the loop advances it. -/
def fallbackFree (start : DateTime) : SchedState →
    List (RedditPost × StepRand) → Bool
  | _, [] => true
  | st, (p, r) :: rest =>
      (decide (p.keyword_id ∈ st.usedKeywords) ||
        (findFreeDay st.dailySubreddits p.subreddit r.attempts).isSome) &&
      fallbackFree start (scheduleStep start (st, []) (p, r)).1 rest

/-- Two posts collide in the sense of the day rule: both are scheduled, on
the same calendar day, to the same subreddit. -/
def SameDayForum (p q : RedditPost) : Prop :=
  (∃ t u, p.timestamp = some t ∧ q.timestamp = some u ∧ t.days = u.days) ∧
  p.subreddit = q.subreddit

/-- An output post is accounted for in the state: its timestamp lies on some
day `d` of the week and its subreddit is in day `d`'s used set. -/
def Covered (start : DateTime) (st : SchedState) (q : RedditPost) : Prop :=
  ∀ u, q.timestamp = some u →
    ∃ d : Fin 7, u.days = start.days + d.val ∧
      q.subreddit ∈ st.dailySubreddits d

/-- All random minute draws of a run are genuine `randint(0, 59)` outcomes. -/
def MinutesValid (prs : List (RedditPost × StepRand)) : Prop :=
  ∀ pr ∈ prs, (∀ i, pr.2.minutes i < 60) ∧ (∀ i, pr.2.fmins i < 60)

instance (t : DateTime) : Decidable t.Valid := by
  unfold DateTime.Valid
  infer_instance

instance (prs : List (RedditPost × StepRand)) : Decidable (MinutesValid prs) := by
  unfold MinutesValid
  exact List.decidableBAll _ _

/-! ## Concrete sample data (for evaluating the development on real runs) -/

/-- A Monday 09:00:00 anchor (the default-start shape). -/
def sampleStart : DateTime := ⟨0, 9, 0, 0⟩

/-- Deterministic random draws: identity day order, minute 0, first slot. -/
def sampleRand : StepRand :=
  { attempts := [0, 1, 2, 3, 4, 5, 6],
    minutes := fun _ => 0, slot := 0,
    fmins := fun _ => 0, fslot := 0 }

def samplePostA : RedditPost :=
  { title := "a", body := "ba", subreddit := "rA",
    author_id := "u1", keyword_id := "k1" }

def samplePostB : RedditPost :=
  { title := "b", body := "bb", subreddit := "rB",
    author_id := "u2", keyword_id := "k2" }

/-- Same keyword as `samplePostA`, different content. -/
def samplePostA2 : RedditPost :=
  { title := "a2", body := "ba2", subreddit := "rC",
    author_id := "u3", keyword_id := "k1" }

/-- The output of scheduling `[A, B]` with `sampleRand` at `sampleStart`. -/
def sampleOutAB : List RedditPost :=
  [{ samplePostA with timestamp := some ⟨0, 7, 0, 0⟩ },
   { samplePostB with timestamp := some ⟨0, 7, 0, 0⟩ }]

/-- The output of scheduling `[A]` alone. -/
def sampleOutA : List RedditPost :=
  [{ samplePostA with timestamp := some ⟨0, 7, 0, 0⟩ }]

/-- A scheduler object fresh out of `__init__`. -/
def sampleScheduler : WeekScheduler :=
  { start_date := sampleStart, schedule := fun _ => [] }

/-- A state in which every day already carries subreddit `rA`. -/
def sampleFullState : SchedState :=
  ⟨∅, fun _ => {"rA"}⟩

/-! ## Basic facts about the chosen slot times -/

theorem chooseTime_eq (start : DateTime) (day : Fin 7) (m : Fin 3 → ℕ)
    (slot : Fin 3) :
    ∃ i : Fin 3, chooseTime start day m slot =
      ⟨start.days + day.val, [7, 12, 19].getD i.val 0, m i, start.second⟩ := by
  refine ⟨slot, ?_⟩
  fin_cases slot <;> rfl

theorem chooseTime_days (start : DateTime) (day : Fin 7) (m : Fin 3 → ℕ)
    (slot : Fin 3) :
    (chooseTime start day m slot).days = start.days + day.val := by
  fin_cases slot <;> rfl

theorem chooseTime_hour (start : DateTime) (day : Fin 7) (m : Fin 3 → ℕ)
    (slot : Fin 3) :
    (chooseTime start day m slot).hour = 7 ∨
    (chooseTime start day m slot).hour = 12 ∨
    (chooseTime start day m slot).hour = 19 := by
  fin_cases slot
  · exact Or.inl rfl
  · exact Or.inr (Or.inl rfl)
  · exact Or.inr (Or.inr rfl)

theorem chooseTime_minute (start : DateTime) (day : Fin 7) (m : Fin 3 → ℕ)
    (slot : Fin 3) :
    ∃ i : Fin 3, (chooseTime start day m slot).minute = m i := by
  refine ⟨slot, ?_⟩
  fin_cases slot <;> rfl

theorem chooseTime_second (start : DateTime) (day : Fin 7) (m : Fin 3 → ℕ)
    (slot : Fin 3) :
    (chooseTime start day m slot).second = start.second := by
  fin_cases slot <;> rfl

/-! ## Step case analysis -/

theorem scheduleStep_of_mem (start : DateTime) (st : SchedState)
    (acc : List RedditPost) (p : RedditPost) (r : StepRand)
    (h : p.keyword_id ∈ st.usedKeywords) :
    scheduleStep start (st, acc) (p, r) = (st, acc) := by
  simp [scheduleStep, h]

theorem scheduleStep_of_find_some (start : DateTime) (st : SchedState)
    (acc : List RedditPost) (p : RedditPost) (r : StepRand) (day : Fin 7)
    (h : p.keyword_id ∉ st.usedKeywords)
    (hf : findFreeDay st.dailySubreddits p.subreddit r.attempts = some day) :
    scheduleStep start (st, acc) (p, r) =
      placePost start st acc p day r.minutes r.slot := by
  simp [scheduleStep, h, hf]

theorem scheduleStep_of_find_none (start : DateTime) (st : SchedState)
    (acc : List RedditPost) (p : RedditPost) (r : StepRand)
    (h : p.keyword_id ∉ st.usedKeywords)
    (hf : findFreeDay st.dailySubreddits p.subreddit r.attempts = none) :
    scheduleStep start (st, acc) (p, r) =
      placePost start st acc p (minConflictDay st.dailySubreddits)
        r.fmins r.fslot := by
  simp [scheduleStep, h, hf]

/-- The day found by the day search is indeed free for the subreddit. -/
theorem findFreeDay_some (daily : Fin 7 → Finset String) (sub : String)
    (attempts : List (Fin 7)) (day : Fin 7)
    (hf : findFreeDay daily sub attempts = some day) :
    sub ∉ daily day := by
  have := List.find?_some hf
  simpa using this

/-- If every day is taken, the day search fails. -/
theorem findFreeDay_none_of_all (daily : Fin 7 → Finset String) (sub : String)
    (attempts : List (Fin 7)) (hall : ∀ d : Fin 7, sub ∈ daily d) :
    findFreeDay daily sub attempts = none := by
  apply List.find?_eq_none.mpr
  intro d _
  simpa using hall d

/-- Exhaustive case split for one loop iteration. -/
theorem scheduleStep_cases (start : DateTime) (st : SchedState)
    (acc : List RedditPost) (p : RedditPost) (r : StepRand) :
    (p.keyword_id ∈ st.usedKeywords ∧
      scheduleStep start (st, acc) (p, r) = (st, acc)) ∨
    (p.keyword_id ∉ st.usedKeywords ∧
      ∃ (day : Fin 7) (mins : Fin 3 → ℕ) (slot : Fin 3),
        scheduleStep start (st, acc) (p, r) =
          placePost start st acc p day mins slot ∧
        (p.subreddit ∉ st.dailySubreddits day ∨
          day = minConflictDay st.dailySubreddits)) := by
  by_cases h : p.keyword_id ∈ st.usedKeywords
  · exact Or.inl ⟨h, scheduleStep_of_mem start st acc p r h⟩
  · refine Or.inr ⟨h, ?_⟩
    cases hf : findFreeDay st.dailySubreddits p.subreddit r.attempts with
    | some day =>
        exact ⟨day, r.minutes, r.slot,
          scheduleStep_of_find_some start st acc p r day h hf,
          Or.inl (findFreeDay_some _ _ _ _ hf)⟩
    | none =>
        exact ⟨minConflictDay st.dailySubreddits, r.fmins, r.fslot,
          scheduleStep_of_find_none start st acc p r h hf, Or.inr rfl⟩

/-- The state produced by a step does not depend on the accumulator. -/
theorem scheduleStep_fst_acc (start : DateTime) (st : SchedState)
    (acc : List RedditPost) (pr : RedditPost × StepRand) :
    (scheduleStep start (st, acc) pr).1 =
      (scheduleStep start (st, []) pr).1 := by
  obtain ⟨p, r⟩ := pr
  by_cases h : p.keyword_id ∈ st.usedKeywords
  · simp [scheduleStep_of_mem start st _ p r h]
  · cases hf : findFreeDay st.dailySubreddits p.subreddit r.attempts with
    | some day =>
        simp [scheduleStep_of_find_some start st _ p r day h hf, placePost]
    | none =>
        simp [scheduleStep_of_find_none start st _ p r h hf, placePost]

/-- After a step the keyword of the processed post is marked used (a skip
leaves the set unchanged, and the keyword was already in it). -/
theorem scheduleStep_usedKeywords (start : DateTime) (st : SchedState)
    (acc : List RedditPost) (p : RedditPost) (r : StepRand) :
    (scheduleStep start (st, acc) (p, r)).1.usedKeywords =
      insert p.keyword_id st.usedKeywords := by
  rcases scheduleStep_cases start st acc p r with ⟨h, heq⟩ |
    ⟨h, day, mins, slot, heq, _⟩
  · rw [heq]
    exact (Finset.insert_eq_self.mpr h).symm
  · rw [heq]
    rfl

/-- Each step either keeps the accumulator or appends the processed post
with exactly its timestamp filled in. -/
theorem scheduleStep_snd (start : DateTime) (st : SchedState)
    (acc : List RedditPost) (p : RedditPost) (r : StepRand) :
    (scheduleStep start (st, acc) (p, r)).2 = acc ∨
    ∃ t : DateTime, (scheduleStep start (st, acc) (p, r)).2 =
      acc ++ [{ p with timestamp := some t }] := by
  rcases scheduleStep_cases start st acc p r with ⟨_, heq⟩ |
    ⟨_, day, mins, slot, heq, _⟩
  · rw [heq]
    exact Or.inl rfl
  · rw [heq]
    exact Or.inr ⟨chooseTime start day mins slot, rfl⟩

/-! ## Python `min` with key: value and first-minimum tie-break -/

theorem pyMinBy_nil {α : Type} (key : α → ℕ) (x : α) :
    pyMinBy key x [] = x := rfl

theorem pyMinBy_cons {α : Type} (key : α → ℕ) (x a : α) (l : List α) :
    pyMinBy key x (a :: l) =
      pyMinBy key (if key a < key x then a else x) l := rfl

theorem pyMinBy_mem {α : Type} (key : α → ℕ) (x : α) (l : List α) :
    pyMinBy key x l ∈ x :: l := by
  induction l generalizing x with
  | nil => simp [pyMinBy_nil]
  | cons a l ih =>
      rw [pyMinBy_cons]
      by_cases hk : key a < key x
      · rw [if_pos hk]
        rcases List.mem_cons.mp (ih a) with h | h
        · rw [h]
          exact List.mem_cons_of_mem _ (List.mem_cons_self a l)
        · exact List.mem_cons_of_mem _ (List.mem_cons_of_mem _ h)
      · rw [if_neg hk]
        rcases List.mem_cons.mp (ih x) with h | h
        · rw [h]
          exact List.mem_cons_self _ _
        · exact List.mem_cons_of_mem _ (List.mem_cons_of_mem _ h)

theorem pyMinBy_le {α : Type} (key : α → ℕ) (x : α) (l : List α) :
    ∀ d ∈ x :: l, key (pyMinBy key x l) ≤ key d := by
  induction l generalizing x with
  | nil => simp [pyMinBy_nil]
  | cons a l ih =>
      intro d hd
      rw [pyMinBy_cons]
      have h1 : key (pyMinBy key (if key a < key x then a else x) l) ≤
          key (if key a < key x then a else x) :=
        ih (if key a < key x then a else x) _ (List.mem_cons_self _ _)
      have hxx : key (if key a < key x then a else x) ≤ key x := by
        by_cases hk : key a < key x <;> simp [hk] <;> omega
      have hxa : key (if key a < key x then a else x) ≤ key a := by
        by_cases hk : key a < key x <;> simp [hk] <;> omega
      rcases List.mem_cons.mp hd with rfl | hd'
      · exact le_trans h1 hxx
      · rcases List.mem_cons.mp hd' with rfl | hd''
        · exact le_trans h1 hxa
        · exact ih (if key a < key x then a else x) d
            (List.mem_cons_of_mem _ hd'')

/-- If the fold result differs from the seed, it came from the list with a
strictly smaller key (Python's `min` replaces the incumbent only on `<`). -/
theorem pyMinBy_ne_init {α : Type} (key : α → ℕ) (x : α) (l : List α)
    (h : pyMinBy key x l ≠ x) :
    pyMinBy key x l ∈ l ∧ key (pyMinBy key x l) < key x := by
  induction l generalizing x with
  | nil => simp [pyMinBy_nil] at h
  | cons a l ih =>
      rw [pyMinBy_cons] at h ⊢
      by_cases hk : key a < key x
      · rw [if_pos hk] at h ⊢
        by_cases hax : pyMinBy key a l = a
        · rw [hax]
          exact ⟨List.mem_cons_self _ _, hk⟩
        · obtain ⟨hm, hlt⟩ := ih a hax
          exact ⟨List.mem_cons_of_mem _ hm, lt_trans hlt hk⟩
      · rw [if_neg hk] at h ⊢
        obtain ⟨hm, hlt⟩ := ih x h
        exact ⟨List.mem_cons_of_mem _ hm, hlt⟩

/-- First-minimum tie-break: when the candidate list is strictly increasing
and all above the seed, every candidate strictly below the result has a
strictly larger key. -/
theorem pyMinBy_first {α : Type} [LinearOrder α] (key : α → ℕ) (x : α)
    (l : List α) (hsort : l.Sorted (· < ·)) (hx : ∀ d ∈ l, x < d) :
    ∀ d ∈ x :: l, d < pyMinBy key x l →
      key (pyMinBy key x l) < key d := by
  induction l generalizing x with
  | nil =>
      intro d hd hdlt
      rw [pyMinBy_nil] at hdlt
      rcases List.mem_cons.mp hd with rfl | hd'
      · exact absurd hdlt (lt_irrefl d)
      · exact absurd hd' (List.not_mem_nil d)
  | cons a l ih =>
      intro d hd hdlt
      rw [pyMinBy_cons] at hdlt ⊢
      have hsort' : l.Sorted (· < ·) := hsort.of_cons
      have haL : ∀ e ∈ l, a < e := fun e he =>
        (List.sorted_cons.mp hsort).1 e he
      have hxa : x < a := hx a (List.mem_cons_self _ _)
      by_cases hk : key a < key x
      · rw [if_pos hk] at hdlt ⊢
        rcases List.mem_cons.mp hd with rfl | hd'
        · have h1 : key (pyMinBy key a l) ≤ key a :=
            pyMinBy_le key a l a (List.mem_cons_self _ _)
          exact lt_of_le_of_lt h1 hk
        · exact ih a hsort' haL d hd' hdlt
      · rw [if_neg hk] at hdlt ⊢
        rcases List.mem_cons.mp hd with rfl | hd'
        · by_cases hres : pyMinBy key d l = d
          · rw [hres] at hdlt
            exact absurd hdlt (lt_irrefl d)
          · exact (pyMinBy_ne_init key d l hres).2
        rcases List.mem_cons.mp hd' with rfl | hd''
        · by_cases hres : pyMinBy key x l = x
          · rw [hres] at hdlt
            exact absurd hdlt (lt_asymm hxa)
          · exact lt_of_lt_of_le (pyMinBy_ne_init key x l hres).2
              (not_lt.mp hk)
        · exact ih x hsort' (fun e he => hx e (List.mem_cons_of_mem _ he)) d
            (List.mem_cons_of_mem _ hd'') hdlt

/-- The fallback day minimises the per-day used-subreddit count. -/
theorem minConflictDay_le (daily : Fin 7 → Finset String) (d : Fin 7) :
    (daily (minConflictDay daily)).card ≤ (daily d).card := by
  have hmem : d ∈ (0 : Fin 7) :: [1, 2, 3, 4, 5, 6] := by fin_cases d <;> decide
  exact pyMinBy_le (fun d => (daily d).card) 0 [1, 2, 3, 4, 5, 6] d hmem

/-- The fallback day is the FIRST minimiser: any strictly smaller day index
has a strictly larger count. -/
theorem minConflictDay_first (daily : Fin 7 → Finset String) (d : Fin 7)
    (hd : d < minConflictDay daily) :
    (daily (minConflictDay daily)).card < (daily d).card := by
  have hmem : d ∈ (0 : Fin 7) :: [1, 2, 3, 4, 5, 6] := by fin_cases d <;> decide
  exact pyMinBy_first (fun d => (daily d).card) 0 [1, 2, 3, 4, 5, 6]
    (by decide) (by decide) d hmem hd

/-! ## Invariants of the scheduling loop -/

/-- A non-skipped post is appended with exactly its timestamp filled in. -/
theorem scheduleStep_snd_of_not_mem (start : DateTime) (st : SchedState)
    (acc : List RedditPost) (p : RedditPost) (r : StepRand)
    (h : p.keyword_id ∉ st.usedKeywords) :
    ∃ t : DateTime, (scheduleStep start (st, acc) (p, r)).2 =
      acc ++ [{ p with timestamp := some t }] := by
  rcases scheduleStep_cases start st acc p r with ⟨hm, _⟩ |
    ⟨_, day, mins, slot, heq, _⟩
  · exact absurd hm h
  · rw [heq]
    exact ⟨chooseTime start day mins slot, rfl⟩

/-- Any predicate preserved by one loop step holds after the whole loop. -/
theorem foldl_scheduleStep_preserve (start : DateTime)
    (P : SchedState × List RedditPost → Prop)
    (hstep : ∀ s pr, P s → P (scheduleStep start s pr)) :
    ∀ (prs : List (RedditPost × StepRand)) (s : SchedState × List RedditPost),
      P s → P (prs.foldl (scheduleStep start) s) := by
  intro prs
  induction prs with
  | nil => exact fun s h => h
  | cons pr rest ih => exact fun s h => ih _ (hstep s pr h)

/-- The keyword bookkeeping invariant: the output keywords are pairwise
distinct and the used-keyword set is exactly the set of output keywords. -/
def KwInv (s : SchedState × List RedditPost) : Prop :=
  (s.2.map RedditPost.keyword_id).Nodup ∧
  s.1.usedKeywords = (s.2.map RedditPost.keyword_id).toFinset

theorem scheduleStep_KwInv (start : DateTime)
    (s : SchedState × List RedditPost) (pr : RedditPost × StepRand)
    (h : KwInv s) : KwInv (scheduleStep start s pr) := by
  obtain ⟨st, acc⟩ := s
  obtain ⟨p, r⟩ := pr
  obtain ⟨hnd, hused⟩ := h
  rcases scheduleStep_cases start st acc p r with ⟨hm, heq⟩ |
    ⟨hm, day, mins, slot, heq, _⟩
  · rw [heq]
    exact ⟨hnd, hused⟩
  · rw [heq]
    have hnotin : p.keyword_id ∉ acc.map RedditPost.keyword_id := by
      intro hc
      exact hm (hused ▸ List.mem_toFinset.mpr hc)
    constructor
    · show (List.map RedditPost.keyword_id
        (acc ++ [{ p with timestamp := some (chooseTime start day mins slot) }])).Nodup
      rw [List.map_append]
      refine List.nodup_append.mpr ⟨hnd, List.nodup_singleton _, ?_⟩
      intro k hk
      rcases List.mem_map.mp hk with ⟨q, hq, rfl⟩
      simp only [List.map_cons, List.map_nil, List.mem_singleton]
      intro hc
      exact hnotin (hc ▸ List.mem_map_of_mem RedditPost.keyword_id hq)
    · show insert p.keyword_id st.usedKeywords = _
      rw [hused]
      ext k
      simp [placePost, List.mem_toFinset, or_comm]

/-- Timestamp shape of every scheduled post: present, on one of the 7 days
of the window, at one of the three peak hours, with the anchor's second. -/
def TsShape (start : DateTime) (p : RedditPost) : Prop :=
  ∃ t : DateTime, p.timestamp = some t ∧
    (∃ d : Fin 7, t.days = start.days + d.val) ∧
    (t.hour = 7 ∨ t.hour = 12 ∨ t.hour = 19) ∧ t.second = start.second

theorem scheduleStep_TsShape (start : DateTime)
    (s : SchedState × List RedditPost) (pr : RedditPost × StepRand)
    (h : ∀ p ∈ s.2, TsShape start p) :
    ∀ p ∈ (scheduleStep start s pr).2, TsShape start p := by
  obtain ⟨st, acc⟩ := s
  obtain ⟨p, r⟩ := pr
  rcases scheduleStep_cases start st acc p r with ⟨_, heq⟩ |
    ⟨_, day, mins, slot, heq, _⟩
  · rw [heq]
    exact h
  · rw [heq]
    intro q hq
    rcases List.mem_append.mp hq with hq | hq
    · exact h q hq
    · rcases List.mem_singleton.mp hq with rfl
      exact ⟨chooseTime start day mins slot, rfl,
        ⟨day, chooseTime_days start day mins slot⟩,
        chooseTime_hour start day mins slot,
        chooseTime_second start day mins slot⟩

/-- Every scheduled post has its timestamp set. -/
theorem scheduleStep_isSome (start : DateTime)
    (s : SchedState × List RedditPost) (pr : RedditPost × StepRand)
    (h : ∀ p ∈ s.2, p.timestamp.isSome) :
    ∀ p ∈ (scheduleStep start s pr).2, p.timestamp.isSome := by
  obtain ⟨st, acc⟩ := s
  obtain ⟨p, r⟩ := pr
  rcases scheduleStep_cases start st acc p r with ⟨_, heq⟩ |
    ⟨_, day, mins, slot, heq, _⟩
  · rw [heq]
    exact h
  · rw [heq]
    intro q hq
    rcases List.mem_append.mp hq with hq | hq
    · exact h q hq
    · rcases List.mem_singleton.mp hq with rfl
      rfl

/-- The per-day used-subreddit sets only grow during the loop. -/
theorem scheduleStep_daily_mono (start : DateTime) (st : SchedState)
    (acc : List RedditPost) (pr : RedditPost × StepRand) (d : Fin 7) :
    st.dailySubreddits d ⊆
      (scheduleStep start (st, acc) pr).1.dailySubreddits d := by
  obtain ⟨p, r⟩ := pr
  rcases scheduleStep_cases start st acc p r with ⟨_, heq⟩ |
    ⟨_, day, mins, slot, heq, _⟩
  · rw [heq]
  · rw [heq]
    show st.dailySubreddits d ⊆ Function.update st.dailySubreddits day _ d
    by_cases hd : d = day
    · subst hd
      rw [Function.update_same]
      exact Finset.subset_insert _ _
    · rw [Function.update_noteq hd]

/-- Coverage is preserved: every already-scheduled post stays accounted for
in the growing state. -/
theorem scheduleStep_Covered (start : DateTime)
    (s : SchedState × List RedditPost) (pr : RedditPost × StepRand)
    (h : ∀ p ∈ s.2, Covered start s.1 p) :
    ∀ p ∈ (scheduleStep start s pr).2,
      Covered start (scheduleStep start s pr).1 p := by
  obtain ⟨st, acc⟩ := s
  obtain ⟨p, r⟩ := pr
  have hmono := scheduleStep_daily_mono start st acc (p, r)
  rcases scheduleStep_cases start st acc p r with ⟨_, heq⟩ |
    ⟨_, day, mins, slot, heq, _⟩
  · rw [heq] at hmono ⊢
    exact h
  · rw [heq] at hmono ⊢
    intro q hq
    rcases List.mem_append.mp hq with hq | hq
    · intro u hu
      obtain ⟨d, hd, hmem⟩ := h q hq u hu
      exact ⟨d, hd, hmono d hmem⟩
    · rcases List.mem_singleton.mp hq with rfl
      intro u hu
      rcases Option.some_injective _ hu.symm with rfl
      refine ⟨day, chooseTime_days start day mins slot, ?_⟩
      show p.subreddit ∈ Function.update st.dailySubreddits day _ day
      rw [Function.update_same]
      exact Finset.mem_insert_self _ _

/-- The loop only appends to the output: whatever has been produced stays. -/
theorem foldl_snd_prefix (start : DateTime) :
    ∀ (prs : List (RedditPost × StepRand)) (st : SchedState)
      (acc : List RedditPost),
      ∃ ext, (prs.foldl (scheduleStep start) (st, acc)).2 = acc ++ ext := by
  intro prs
  induction prs with
  | nil => exact fun st acc => ⟨[], by simp⟩
  | cons pr rest ih =>
      intro st acc
      obtain ⟨p, r⟩ := pr
      rw [List.foldl_cons]
      cases hstep : scheduleStep start (st, acc) (p, r) with
      | mk st2 acc2 =>
          obtain ⟨ext, hext⟩ := ih st2 acc2
          rcases scheduleStep_snd start st acc p r with hsnd | ⟨t, hsnd⟩
          · rw [hstep] at hsnd
            dsimp only at hsnd
            refine ⟨ext, ?_⟩
            rw [hext, hsnd]
          · rw [hstep] at hsnd
            dsimp only at hsnd
            refine ⟨[{ p with timestamp := some t }] ++ ext, ?_⟩
            rw [hext, hsnd, List.append_assoc]

/-- Output size accounting: each processed post either lands in the output
or is counted as a keyword collision against the already-seen set. -/
theorem foldl_length_collided (start : DateTime) :
    ∀ (prs : List (RedditPost × StepRand)) (st : SchedState)
      (acc : List RedditPost),
      (prs.foldl (scheduleStep start) (st, acc)).2.length +
        collidedFrom st.usedKeywords (prs.map fun pr => pr.1.keyword_id) =
      acc.length + prs.length := by
  intro prs
  induction prs with
  | nil =>
      intro st acc
      simp [collidedFrom]
  | cons pr rest ih =>
      intro st acc
      obtain ⟨p, r⟩ := pr
      rw [List.foldl_cons, List.map_cons, collidedFrom]
      by_cases h : p.keyword_id ∈ st.usedKeywords
      · rw [scheduleStep_of_mem start st acc p r h, if_pos h,
          Finset.insert_eq_self.mpr h]
        have := ih st acc
        simp only [List.length_cons]
        omega
      · rw [if_neg h]
        have hused := scheduleStep_usedKeywords start st acc p r
        obtain ⟨t, hsnd⟩ := scheduleStep_snd_of_not_mem start st acc p r h
        have heq : scheduleStep start (st, acc) (p, r) =
            ((scheduleStep start (st, acc) (p, r)).1,
              acc ++ [{ p with timestamp := some t }]) :=
          Prod.ext_iff.mpr ⟨rfl, hsnd⟩
        rw [heq]
        have hthis := ih (scheduleStep start (st, acc) (p, r)).1
          (acc ++ [{ p with timestamp := some t }])
        rw [hused] at hthis
        simp only [List.length_append, List.length_singleton,
          List.length_cons, List.length_nil] at hthis ⊢
        omega

/-- When no processed keyword repeats (within the batch or against the
already-used set), nothing is dropped: the loop appends exactly one
timestamp-filled copy of every processed post, in processing order. -/
theorem foldl_no_drop (start : DateTime) :
    ∀ (prs : List (RedditPost × StepRand)) (st : SchedState)
      (acc : List RedditPost),
      (prs.map fun pr => pr.1.keyword_id).Nodup →
      (∀ pr ∈ prs, pr.1.keyword_id ∉ st.usedKeywords) →
      (prs.foldl (scheduleStep start) (st, acc)).2.map eraseTs =
        acc.map eraseTs ++ prs.map fun pr => eraseTs pr.1 := by
  intro prs
  induction prs with
  | nil =>
      intro st acc _ _
      simp
  | cons pr rest ih =>
      intro st acc hnd hfresh
      obtain ⟨p, r⟩ := pr
      rw [List.foldl_cons]
      have h : p.keyword_id ∉ st.usedKeywords :=
        hfresh (p, r) (List.mem_cons_self _ _)
      have hused := scheduleStep_usedKeywords start st acc p r
      obtain ⟨t, hsnd⟩ := scheduleStep_snd_of_not_mem start st acc p r h
      have heq : scheduleStep start (st, acc) (p, r) =
          ((scheduleStep start (st, acc) (p, r)).1,
            acc ++ [{ p with timestamp := some t }]) :=
        Prod.ext_iff.mpr ⟨rfl, hsnd⟩
      have hnd' : (rest.map fun pr => pr.1.keyword_id).Nodup :=
        (List.nodup_cons.mp hnd).2
      have hhead : p.keyword_id ∉ rest.map fun pr => pr.1.keyword_id :=
        (List.nodup_cons.mp hnd).1
      have hfresh' : ∀ pr ∈ rest,
          pr.1.keyword_id ∉ (scheduleStep start (st, acc) (p, r)).1.usedKeywords := by
        intro q hq
        rw [hused, Finset.mem_insert]
        push_neg
        refine ⟨?_, hfresh q (List.mem_cons_of_mem _ hq)⟩
        intro hc
        exact hhead (hc ▸ List.mem_map_of_mem (fun pr => pr.1.keyword_id) hq)
      rw [heq, ih (scheduleStep start (st, acc) (p, r)).1 _ hnd' hfresh']
      simp [eraseTs]

/-- Frame property of the loop: as a multiset, the timestamp-stripped output
is contained in the accumulator plus the timestamp-stripped processed posts
(the loop creates no post and consumes each input at most once). -/
theorem foldl_multiset_le (start : DateTime) :
    ∀ (prs : List (RedditPost × StepRand)) (st : SchedState)
      (acc : List RedditPost),
      (((prs.foldl (scheduleStep start) (st, acc)).2.map eraseTs :
          List RedditPost) : Multiset RedditPost) ≤
        ((acc.map eraseTs : List RedditPost) : Multiset RedditPost) +
          ((prs.map fun pr => eraseTs pr.1 : List RedditPost) :
            Multiset RedditPost) := by
  intro prs
  induction prs with
  | nil =>
      intro st acc
      simp
  | cons pr rest ih =>
      intro st acc
      obtain ⟨p, r⟩ := pr
      rw [List.foldl_cons]
      rcases scheduleStep_snd start st acc p r with hsnd | ⟨t, hsnd⟩
      · have heq : scheduleStep start (st, acc) (p, r) =
            ((scheduleStep start (st, acc) (p, r)).1, acc) :=
          Prod.ext_iff.mpr ⟨rfl, hsnd⟩
        rw [heq]
        refine le_trans (ih (scheduleStep start (st, acc) (p, r)).1 acc) ?_
        rw [List.map_cons]
        refine add_le_add_left ?_ _
        exact Multiset.le_cons_self _ _
      · have heq : scheduleStep start (st, acc) (p, r) =
            ((scheduleStep start (st, acc) (p, r)).1,
              acc ++ [{ p with timestamp := some t }]) :=
          Prod.ext_iff.mpr ⟨rfl, hsnd⟩
        rw [heq]
        refine le_trans (ih (scheduleStep start (st, acc) (p, r)).1 _) ?_
        rw [List.map_append, List.map_cons]
        have herase : eraseTs { p with timestamp := some t } = eraseTs p := rfl
        simp only [List.map_cons, List.map_nil, herase]
        rw [← Multiset.coe_add]
        simp [Multiset.singleton_add, add_assoc]

theorem fallbackFree_nil (start : DateTime) (st : SchedState) :
    fallbackFree start st [] = true := rfl

theorem fallbackFree_cons (start : DateTime) (st : SchedState)
    (p : RedditPost) (r : StepRand) (rest : List (RedditPost × StepRand)) :
    fallbackFree start st ((p, r) :: rest) =
      ((decide (p.keyword_id ∈ st.usedKeywords) ||
        (findFreeDay st.dailySubreddits p.subreddit r.attempts).isSome) &&
       fallbackFree start (scheduleStep start (st, []) (p, r)).1 rest) := rfl

/-- The no-collision relation is symmetric. -/
theorem notSameDayForum_symm :
    Symmetric (fun p q : RedditPost => ¬ SameDayForum p q) := by
  intro p q h hsdf
  apply h
  obtain ⟨⟨t, u, hp, hq, hd⟩, hs⟩ := hsdf
  exact ⟨⟨u, t, hq, hp, hd.symm⟩, hs.symm⟩

/-- Day-rule invariant: while the fallback branch is never taken, no two
produced posts share both calendar day and subreddit. -/
theorem foldl_pairwise (start : DateTime) :
    ∀ (prs : List (RedditPost × StepRand)) (st : SchedState)
      (acc : List RedditPost),
      fallbackFree start st prs = true →
      (∀ p ∈ acc, Covered start st p) →
      acc.Pairwise (fun p q => ¬ SameDayForum p q) →
      (prs.foldl (scheduleStep start) (st, acc)).2.Pairwise
        (fun p q => ¬ SameDayForum p q) := by
  intro prs
  induction prs with
  | nil => exact fun st acc _ _ hpw => hpw
  | cons pr rest ih =>
      intro st acc hff hcov hpw
      obtain ⟨p, r⟩ := pr
      rw [List.foldl_cons]
      rw [fallbackFree_cons] at hff
      simp only [Bool.and_eq_true] at hff
      obtain ⟨hhead, htail⟩ := hff
      by_cases h : p.keyword_id ∈ st.usedKeywords
      · rw [scheduleStep_of_mem start st acc p r h]
        rw [scheduleStep_of_mem start st [] p r h] at htail
        exact ih st acc htail hcov hpw
      · have hfindSome :
            (findFreeDay st.dailySubreddits p.subreddit r.attempts).isSome := by
          simp only [Bool.or_eq_true] at hhead
          rcases hhead with hx | hx
          · exact absurd (of_decide_eq_true hx) h
          · exact hx
        obtain ⟨day, hf⟩ := Option.isSome_iff_exists.mp hfindSome
        have hfree : p.subreddit ∉ st.dailySubreddits day :=
          findFreeDay_some _ _ _ _ hf
        have hstep := scheduleStep_of_find_some start st acc p r day h hf
        rw [hstep]
        rw [scheduleStep_of_find_some start st [] p r day h hf] at htail
        have hcov2 := scheduleStep_Covered start (st, acc) (p, r) hcov
        rw [hstep] at hcov2
        have hpw2 : (acc ++ [{ p with timestamp := some (chooseTime start day r.minutes r.slot) }]).Pairwise (fun p q => ¬ SameDayForum p q) := by
          refine List.pairwise_append.mpr ⟨hpw, List.pairwise_singleton _ _, ?_⟩
          intro q hq b hb
          rcases List.mem_singleton.mp hb with rfl
          intro hsdf
          obtain ⟨⟨u, t2, hqts, hpts, hdays⟩, hsub⟩ := hsdf
          have ht2 : t2 = chooseTime start day r.minutes r.slot :=
            Option.some_injective _ hpts.symm
          obtain ⟨d, hud, hdmem⟩ := hcov q hq u hqts
          have hdval : d.val = day.val := by
            have h1 : u.days = start.days + day.val := by
              rw [hdays, ht2, chooseTime_days]
            omega
          have hd : d = day := Fin.ext hdval
          subst hd
          apply hfree
          have : q.subreddit = p.subreddit := hsub
          rw [← this]
          exact hdmem
        exact ih (placePost start st [] p day r.minutes r.slot).1
          (acc ++ [{ p with timestamp := some (chooseTime start day r.minutes r.slot) }]) htail hcov2 hpw2

/-! ## Top-level facts about schedule_posts -/

theorem schedulePostsCore_isSome (start : DateTime)
    (prs : List (RedditPost × StepRand)) :
    ∀ p ∈ (schedulePostsCore start prs).2, p.timestamp.isSome :=
  foldl_scheduleStep_preserve start (fun s => ∀ p ∈ s.2, p.timestamp.isSome)
    (scheduleStep_isSome start) prs (SchedState.initial, [])
    (fun p hp => absurd hp (List.not_mem_nil p))

/-- The parse-and-sort stage never fails: `schedule_posts` always returns the
sorted output list. -/
theorem schedulePosts_eq (start : DateTime)
    (prs : List (RedditPost × StepRand)) :
    schedulePosts start prs =
      some ((schedulePostsCore start prs).2.mergeSort
        (fun a b => tsKey a ≤ tsKey b)) := by
  have hall : ((schedulePostsCore start prs).2.all
      (fun p => p.timestamp.isSome)) = true :=
    List.all_eq_true.mpr (fun p hp => schedulePostsCore_isSome start prs p hp)
  simp [schedulePosts, hall]

theorem schedulePosts_perm (start : DateTime)
    (prs : List (RedditPost × StepRand)) (out : List RedditPost)
    (h : schedulePosts start prs = some out) :
    out.Perm (schedulePostsCore start prs).2 := by
  rw [schedulePosts_eq] at h
  rcases Option.some_injective _ h.symm with rfl
  exact List.mergeSort_perm _ _

theorem schedulePosts_sorted (start : DateTime)
    (prs : List (RedditPost × StepRand)) (out : List RedditPost)
    (h : schedulePosts start prs = some out) :
    out.Pairwise (fun a b => tsKey a ≤ tsKey b) := by
  rw [schedulePosts_eq] at h
  rcases Option.some_injective _ h.symm with rfl
  have hs := @List.sorted_mergeSort RedditPost
    (fun a b => decide (tsKey a ≤ tsKey b))
    (fun a b c hab hbc =>
      decide_eq_true (Nat.le_trans (of_decide_eq_true hab)
        (of_decide_eq_true hbc)))
    (fun a b => by
      rcases Nat.le_total (tsKey a) (tsKey b) with hx | hx <;>
        simp [hx])
    (schedulePostsCore start prs).2
  exact hs.imp (fun hab => of_decide_eq_true hab)


/-- Case split remembering which random draws the placement used. -/
theorem scheduleStep_cases_rand (start : DateTime) (st : SchedState)
    (acc : List RedditPost) (p : RedditPost) (r : StepRand) :
    (p.keyword_id ∈ st.usedKeywords ∧
      scheduleStep start (st, acc) (p, r) = (st, acc)) ∨
    (p.keyword_id ∉ st.usedKeywords ∧
      ∃ day : Fin 7,
        scheduleStep start (st, acc) (p, r) =
          placePost start st acc p day r.minutes r.slot ∨
        scheduleStep start (st, acc) (p, r) =
          placePost start st acc p day r.fmins r.fslot) := by
  by_cases h : p.keyword_id ∈ st.usedKeywords
  · exact Or.inl ⟨h, scheduleStep_of_mem start st acc p r h⟩
  · refine Or.inr ⟨h, ?_⟩
    cases hf : findFreeDay st.dailySubreddits p.subreddit r.attempts with
    | some day =>
        exact ⟨day, Or.inl (scheduleStep_of_find_some start st acc p r day h hf)⟩
    | none =>
        exact ⟨minConflictDay st.dailySubreddits,
          Or.inr (scheduleStep_of_find_none start st acc p r h hf)⟩

/-- With genuine `randint(0, 59)` draws every assigned minute is below 60. -/
theorem foldl_minute_lt (start : DateTime) :
    ∀ (prs : List (RedditPost × StepRand)) (st : SchedState)
      (acc : List RedditPost),
      MinutesValid prs →
      (∀ p ∈ acc, ∀ t, p.timestamp = some t → t.minute < 60) →
      ∀ p ∈ (prs.foldl (scheduleStep start) (st, acc)).2, ∀ t,
        p.timestamp = some t → t.minute < 60 := by
  intro prs
  induction prs with
  | nil => exact fun st acc _ hacc => hacc
  | cons pr rest ih =>
      intro st acc hval hacc
      obtain ⟨p, r⟩ := pr
      rw [List.foldl_cons]
      have hval2 : MinutesValid rest :=
        fun q hq => hval q (List.mem_cons_of_mem _ hq)
      have hvhead := hval (p, r) (List.mem_cons_self _ _)
      have hacc2 : ∀ q ∈ (scheduleStep start (st, acc) (p, r)).2, ∀ t,
          q.timestamp = some t → t.minute < 60 := by
        rcases scheduleStep_cases_rand start st acc p r with ⟨_, heq⟩ |
          ⟨_, day, heq | heq⟩
        · rw [heq]
          exact hacc
        · rw [heq]
          intro q hq t ht
          rcases List.mem_append.mp hq with hq2 | hq2
          · exact hacc q hq2 t ht
          · rcases List.mem_singleton.mp hq2 with rfl
            obtain ⟨j, hj⟩ := chooseTime_minute start day r.minutes r.slot
            have ht2 : chooseTime start day r.minutes r.slot = t :=
              Option.some_injective _ ht
            rw [← ht2, hj]
            exact hvhead.1 j
        · rw [heq]
          intro q hq t ht
          rcases List.mem_append.mp hq with hq2 | hq2
          · exact hacc q hq2 t ht
          · rcases List.mem_singleton.mp hq2 with rfl
            obtain ⟨j, hj⟩ := chooseTime_minute start day r.fmins r.fslot
            have ht2 : chooseTime start day r.fmins r.fslot = t :=
              Option.some_injective _ ht
            rw [← ht2, hj]
            exact hvhead.2 j
      show ∀ p2 ∈ (List.foldl (scheduleStep start)
        ((scheduleStep start (st, acc) (p, r)).1,
          (scheduleStep start (st, acc) (p, r)).2) rest).2, ∀ t,
          p2.timestamp = some t → t.minute < 60
      exact ih _ _ hval2 hacc2

/-- As long as the shuffled day order visits every day and some day is still
free for the subreddit, the day search succeeds with a free day. -/
theorem findFreeDay_isSome_of_exists (daily : Fin 7 → Finset String)
    (sub : String) (attempts : List (Fin 7))
    (hcover : ∀ d : Fin 7, d ∈ attempts)
    (hex : ∃ d : Fin 7, sub ∉ daily d) :
    ∃ day, findFreeDay daily sub attempts = some day ∧ sub ∉ daily day := by
  cases hf : findFreeDay daily sub attempts with
  | some day => exact ⟨day, rfl, findFreeDay_some _ _ _ _ hf⟩
  | none =>
      obtain ⟨d, hd⟩ := hex
      have hmem := List.find?_eq_none.mp hf d (hcover d)
      simp only [decide_eq_true_eq, Decidable.not_not] at hmem
      exact absurd hmem hd

/-- Every processed keyword shows up among the output keywords. -/
theorem foldl_kw_mem (start : DateTime) :
    ∀ (prs : List (RedditPost × StepRand)) (st : SchedState)
      (acc : List RedditPost), KwInv (st, acc) →
      ∀ k ∈ prs.map (fun pr => pr.1.keyword_id),
        k ∈ (prs.foldl (scheduleStep start) (st, acc)).2.map
          RedditPost.keyword_id := by
  intro prs
  induction prs with
  | nil =>
      intro st acc _ k hk
      simp at hk
  | cons pr rest ih =>
      intro st acc hkw k hk
      obtain ⟨p, r⟩ := pr
      rw [List.foldl_cons]
      rw [List.map_cons] at hk
      have hkw2 : KwInv (scheduleStep start (st, acc) (p, r)) :=
        scheduleStep_KwInv start (st, acc) (p, r) hkw
      show k ∈ (List.foldl (scheduleStep start)
        ((scheduleStep start (st, acc) (p, r)).1,
          (scheduleStep start (st, acc) (p, r)).2) rest).2.map
          RedditPost.keyword_id
      rcases List.mem_cons.mp hk with rfl | hk2
      · obtain ⟨ext, hext⟩ := foldl_snd_prefix start rest
          (scheduleStep start (st, acc) (p, r)).1
          (scheduleStep start (st, acc) (p, r)).2
        have h1 : p.keyword_id ∈
            (scheduleStep start (st, acc) (p, r)).1.usedKeywords := by
          rw [scheduleStep_usedKeywords]
          exact Finset.mem_insert_self _ _
        rw [hkw2.2] at h1
        have h2 := List.mem_toFinset.mp h1
        rw [hext, List.map_append]
        exact List.mem_append_left _ h2
      · exact ih _ _ hkw2 k hk2


/-! ## Claims -/

/-- C1: for every input batch and any shuffle outcome, the output topic
identifiers are pairwise distinct, the output size equals the input size
minus the number of posts whose topic collided with an earlier-processed
post in the call, and exactly one post appears in the output for each
distinct topic identifier present in the input. -/
theorem claim_C1_distinct_topics (start : DateTime) (posts : List RedditPost)
    (prs : List (RedditPost × StepRand)) (out : List RedditPost)
    (hperm : (prs.map Prod.fst).Perm posts)
    (hout : schedulePosts start prs = some out) :
    (out.map RedditPost.keyword_id).Nodup ∧
    out.length = posts.length -
      collidedFrom ∅ (prs.map fun pr => pr.1.keyword_id) ∧
    ∀ k, k ∈ out.map RedditPost.keyword_id ↔
      k ∈ posts.map RedditPost.keyword_id := by
  have hop : out.Perm (schedulePostsCore start prs).2 :=
    schedulePosts_perm start prs out hout
  have hkwinit : KwInv (SchedState.initial, ([] : List RedditPost)) :=
    ⟨List.nodup_nil, by simp [SchedState.initial]⟩
  have hkw : KwInv (schedulePostsCore start prs) :=
    foldl_scheduleStep_preserve start KwInv (scheduleStep_KwInv start) prs
      (SchedState.initial, []) hkwinit
  refine ⟨(hop.map RedditPost.keyword_id).nodup_iff.mpr hkw.1, ?_, ?_⟩
  · have hlen := foldl_length_collided start prs SchedState.initial []
    have hinit : SchedState.initial.usedKeywords = (∅ : Finset String) := rfl
    rw [hinit] at hlen
    have h1 : out.length = (schedulePostsCore start prs).2.length :=
      hop.length_eq
    have hcl : (schedulePostsCore start prs).2.length =
        (prs.foldl (scheduleStep start) (SchedState.initial, [])).2.length :=
      rfl
    have h2 : posts.length = prs.length := by
      have h3 := hperm.length_eq
      simpa using h3.symm
    simp only [List.length_nil] at hlen
    omega
  · intro k
    constructor
    · intro hk
      obtain ⟨q, hq, rfl⟩ := List.mem_map.mp hk
      have hms := foldl_multiset_le start prs SchedState.initial []
      have hqcore : q ∈ (schedulePostsCore start prs).2 := hop.mem_iff.mp hq
      have h3 : eraseTs q ∈ (schedulePostsCore start prs).2.map eraseTs :=
        List.mem_map_of_mem eraseTs hqcore
      have h4 : eraseTs q ∈ prs.map fun pr => eraseTs pr.1 := by
        have h5 := Multiset.mem_of_le hms (Multiset.mem_coe.mpr h3)
        simpa using h5
      obtain ⟨pr, hpr, heq⟩ := List.mem_map.mp h4
      have hkweq : pr.1.keyword_id = q.keyword_id := by
        have h6 := congrArg RedditPost.keyword_id heq
        simpa [eraseTs] using h6
      have h7 : pr.1 ∈ posts :=
        hperm.mem_iff.mp (List.mem_map_of_mem Prod.fst hpr)
      rw [← hkweq]
      exact List.mem_map_of_mem _ h7
    · intro hk
      obtain ⟨q, hq, rfl⟩ := List.mem_map.mp hk
      have h6 : q ∈ prs.map Prod.fst := hperm.mem_iff.mpr hq
      obtain ⟨pr, hpr, rfl⟩ := List.mem_map.mp h6
      have h8 : pr.1.keyword_id ∈ prs.map fun pr => pr.1.keyword_id :=
        List.mem_map_of_mem _ hpr
      have h9 := foldl_kw_mem start prs SchedState.initial [] hkwinit _ h8
      exact (hop.map RedditPost.keyword_id).mem_iff.mpr h9

-- C1 witness: the theorem applied to a concrete two-post batch.
unseal List.merge List.mergeSort in
theorem claim_C1_distinct_topics_witness :
    (sampleOutAB.map RedditPost.keyword_id).Nodup ∧
    sampleOutAB.length = [samplePostA, samplePostB].length -
      collidedFrom ∅
        ([(samplePostA, sampleRand), (samplePostB, sampleRand)].map
          fun pr => pr.1.keyword_id) ∧
    ∀ k, k ∈ sampleOutAB.map RedditPost.keyword_id ↔
      k ∈ [samplePostA, samplePostB].map RedditPost.keyword_id :=
  claim_C1_distinct_topics sampleStart [samplePostA, samplePostB]
    [(samplePostA, sampleRand), (samplePostB, sampleRand)] sampleOutAB
    (by decide) (by decide)

-- C3 counterexample: with two posts sharing topic k1, the second processed
-- post is absent from the output (even ignoring timestamps), so not every
-- input post is present in the output.
unseal List.merge List.mergeSort in
theorem claim_C3_counterexample :
    [(samplePostA, sampleRand), (samplePostA2, sampleRand)].map Prod.fst =
      [samplePostA, samplePostA2] ∧
    schedulePosts sampleStart
      [(samplePostA, sampleRand), (samplePostA2, sampleRand)] =
      some sampleOutA ∧
    sampleOutA.length = 1 ∧
    [samplePostA, samplePostA2].length = 2 ∧
    ¬ ∃ q ∈ sampleOutA, eraseTs q = eraseTs samplePostA2 := by
  refine ⟨rfl, by decide, rfl, rfl, ?_⟩
  decide

/-- C3 amended: every input post is present exactly once in the output
PROVIDED the batch carries pairwise-distinct topic identifiers; posts whose
topic duplicates an earlier-processed one are dropped (see the
counterexample). -/
theorem claim_C3_no_silent_drop (start : DateTime) (posts : List RedditPost)
    (prs : List (RedditPost × StepRand)) (out : List RedditPost)
    (hperm : (prs.map Prod.fst).Perm posts)
    (hnd : (posts.map RedditPost.keyword_id).Nodup)
    (hout : schedulePosts start prs = some out) :
    (out.map eraseTs).Perm (posts.map eraseTs) := by
  have h1 : (prs.map fun pr => pr.1.keyword_id).Perm
      (posts.map RedditPost.keyword_id) := by
    have h2 := hperm.map RedditPost.keyword_id
    simpa [List.map_map, Function.comp] using h2
  have hnd2 : (prs.map fun pr => pr.1.keyword_id).Nodup :=
    h1.nodup_iff.mpr hnd
  have hfresh : ∀ pr ∈ prs,
      pr.1.keyword_id ∉ SchedState.initial.usedKeywords := by
    intro pr _
    simp [SchedState.initial]
  have hcore := foldl_no_drop start prs SchedState.initial [] hnd2 hfresh
  have hop := schedulePosts_perm start prs out hout
  have hstep2 : (schedulePostsCore start prs).2.map eraseTs =
      prs.map fun pr => eraseTs pr.1 := by simpa using hcore
  have hstep3 : (prs.map fun pr => eraseTs pr.1).Perm (posts.map eraseTs) := by
    have h3 := hperm.map eraseTs
    simpa [List.map_map, Function.comp] using h3
  exact (hstep2 ▸ hop.map eraseTs).trans hstep3

-- C3 witness: the amended theorem applied to a distinct-topic batch.
unseal List.merge List.mergeSort in
theorem claim_C3_no_silent_drop_witness :
    (sampleOutAB.map eraseTs).Perm
      ([samplePostA, samplePostB].map eraseTs) :=
  claim_C3_no_silent_drop sampleStart [samplePostA, samplePostB]
    [(samplePostA, sampleRand), (samplePostB, sampleRand)] sampleOutAB
    (by decide) (by decide) (by decide)

/-- C10: the scheduler only fills in the timestamp field: stripped of
timestamps, the output is a sub-multiset of the input (no post is created,
none is consumed twice), and every output post coincides with some input
post on all fields other than the timestamp. -/
theorem claim_C10_frame (start : DateTime) (posts : List RedditPost)
    (prs : List (RedditPost × StepRand)) (out : List RedditPost)
    (hperm : (prs.map Prod.fst).Perm posts)
    (hout : schedulePosts start prs = some out) :
    (((out.map eraseTs : List RedditPost) : Multiset RedditPost) ≤
      ((posts.map eraseTs : List RedditPost) : Multiset RedditPost)) ∧
    ∀ p ∈ out, ∃ q ∈ posts,
      p.title = q.title ∧ p.body = q.body ∧ p.subreddit = q.subreddit ∧
      p.author_id = q.author_id ∧ p.keyword_id = q.keyword_id := by
  have hop := schedulePosts_perm start prs out hout
  have hms := foldl_multiset_le start prs SchedState.initial []
  have hms2 : ((out.map eraseTs : List RedditPost) : Multiset RedditPost) ≤
      ((posts.map eraseTs : List RedditPost) : Multiset RedditPost) := by
    have he1 : ((out.map eraseTs : List RedditPost) : Multiset RedditPost) =
        (((schedulePostsCore start prs).2.map eraseTs : List RedditPost) :
          Multiset RedditPost) :=
      Multiset.coe_eq_coe.mpr (hop.map eraseTs)
    rw [he1]
    refine le_trans hms ?_
    have he2 : ((prs.map fun pr => eraseTs pr.1 : List RedditPost) :
        Multiset RedditPost) =
        ((posts.map eraseTs : List RedditPost) : Multiset RedditPost) :=
      Multiset.coe_eq_coe.mpr (by
        have h3 := hperm.map eraseTs
        simpa [List.map_map, Function.comp] using h3)
    simp [he2]
  refine ⟨hms2, ?_⟩
  intro p hp
  have h3 : eraseTs p ∈ out.map eraseTs := List.mem_map_of_mem eraseTs hp
  have h4 : eraseTs p ∈ posts.map eraseTs :=
    Multiset.mem_coe.mp (Multiset.mem_of_le hms2 (Multiset.mem_coe.mpr h3))
  obtain ⟨q, hq, hqe⟩ := List.mem_map.mp h4
  refine ⟨q, hq, ?_⟩
  simp only [eraseTs, RedditPost.mk.injEq] at hqe
  obtain ⟨h5, h6, h7, h8, h9, _⟩ := hqe
  exact ⟨h5.symm, h6.symm, h7.symm, h8.symm, h9.symm⟩

-- C10 witness: the theorem applied to a concrete two-post batch.
unseal List.merge List.mergeSort in
theorem claim_C10_frame_witness :
    (((sampleOutAB.map eraseTs : List RedditPost) : Multiset RedditPost) ≤
      (([samplePostA, samplePostB].map eraseTs : List RedditPost) :
        Multiset RedditPost)) ∧
    ∀ p ∈ sampleOutAB, ∃ q ∈ [samplePostA, samplePostB],
      p.title = q.title ∧ p.body = q.body ∧ p.subreddit = q.subreddit ∧
      p.author_id = q.author_id ∧ p.keyword_id = q.keyword_id :=
  claim_C10_frame sampleStart [samplePostA, samplePostB]
    [(samplePostA, sampleRand), (samplePostB, sampleRand)] sampleOutAB
    (by decide) (by decide)


/-- C2: (a) as long as no step exercises the fallback branch, no two output
posts share both calendar day and subreddit; (b) whenever a post is processed
while its subreddit is still absent from some day's used set (and the
shuffled day order visits every day), the normal branch fires and places the
post on a day free for its subreddit, introducing no same-day/same-forum
collision against any covered already-scheduled post. -/
theorem claim_C2_day_rule :
    (∀ (start : DateTime) (prs : List (RedditPost × StepRand))
      (out : List RedditPost),
      fallbackFree start SchedState.initial prs = true →
      schedulePosts start prs = some out →
      out.Pairwise fun p q => ¬ SameDayForum p q) ∧
    (∀ (start : DateTime) (st : SchedState) (acc : List RedditPost)
      (p : RedditPost) (r : StepRand),
      (∀ d : Fin 7, d ∈ r.attempts) →
      p.keyword_id ∉ st.usedKeywords →
      (∃ d : Fin 7, p.subreddit ∉ st.dailySubreddits d) →
      ∃ day : Fin 7, p.subreddit ∉ st.dailySubreddits day ∧
        scheduleStep start (st, acc) (p, r) =
          placePost start st acc p day r.minutes r.slot ∧
        ∀ q ∈ acc, Covered start st q →
          ¬ SameDayForum q { p with timestamp := some (chooseTime start day r.minutes r.slot) }) := by
  constructor
  · intro start prs out hff hout
    have hpw := foldl_pairwise start prs SchedState.initial [] hff
      (fun p hp => absurd hp (List.not_mem_nil p)) List.Pairwise.nil
    exact ((schedulePosts_perm start prs out hout).pairwise_iff
      (fun h => notSameDayForum_symm h)).mpr hpw
  · intro start st acc p r hcover hk hex
    obtain ⟨day, hf, hfree⟩ := findFreeDay_isSome_of_exists
      st.dailySubreddits p.subreddit r.attempts hcover hex
    refine ⟨day, hfree,
      scheduleStep_of_find_some start st acc p r day hk hf, ?_⟩
    intro q hq hqcov hsdf
    obtain ⟨⟨u, t2, hqts, hpts, hdays⟩, hsub⟩ := hsdf
    have ht2 : t2 = chooseTime start day r.minutes r.slot :=
      Option.some_injective _ hpts.symm
    obtain ⟨d, hud, hdmem⟩ := hqcov u hqts
    have hdval : d = day := by
      refine Fin.ext ?_
      have h1 : u.days = start.days + day.val := by
        rw [hdays, ht2, chooseTime_days]
      omega
    subst hdval
    apply hfree
    have h2 : q.subreddit = p.subreddit := hsub
    rw [← h2]
    exact hdmem

-- C2 witness: part (a) on a concrete fallback-free run, part (b) on the
-- fresh state.
unseal List.merge List.mergeSort in
theorem claim_C2_day_rule_witness :
    (sampleOutA.Pairwise fun p q => ¬ SameDayForum p q) ∧
    (∃ day : Fin 7,
      samplePostA.subreddit ∉ SchedState.initial.dailySubreddits day ∧
      scheduleStep sampleStart (SchedState.initial, [])
          (samplePostA, sampleRand) =
        placePost sampleStart SchedState.initial [] samplePostA day
          sampleRand.minutes sampleRand.slot ∧
      ∀ q ∈ ([] : List RedditPost), Covered sampleStart SchedState.initial q →
        ¬ SameDayForum q { samplePostA with timestamp := some (chooseTime sampleStart day sampleRand.minutes sampleRand.slot) }) :=
  ⟨claim_C2_day_rule.1 sampleStart [(samplePostA, sampleRand)] sampleOutA
    (by decide) (by decide),
   claim_C2_day_rule.2 sampleStart SchedState.initial [] samplePostA
    sampleRand (by decide) (by decide) ⟨0, by decide⟩⟩

-- C4 counterexample: a legitimate execution (valid anchor, permutation day
-- order, randint minutes) whose assigned timestamp 07:00 on day 0 lies
-- strictly BEFORE the 09:00 anchor, i.e. outside [start_date, start_date+7d).
unseal List.merge List.mergeSort in
theorem claim_C4_counterexample :
    sampleStart.Valid ∧
    (∀ d : Fin 7, d ∈ sampleRand.attempts) ∧
    MinutesValid [(samplePostA, sampleRand)] ∧
    schedulePosts sampleStart [(samplePostA, sampleRand)] = some sampleOutA ∧
    (∃ p ∈ sampleOutA, ∃ t : DateTime, p.timestamp = some t ∧
      t.toSec < sampleStart.toSec) := by
  refine ⟨by decide, by decide, by decide, by decide, ?_⟩
  refine ⟨{ samplePostA with timestamp := some ⟨0, 7, 0, 0⟩ }, by decide,
    ⟨0, 7, 0, 0⟩, rfl, by decide⟩

/-- C4 amended: for a valid anchor and genuine minute draws, every assigned
timestamp falls within the 7 CALENDAR DAYS of the window — the half-open
interval from midnight of the anchor's day to midnight seven days later
(the 07:xx slot of day 0 may precede the anchor's own time of day, so the
interval cannot be anchored at `start_date` itself). -/
theorem claim_C4_week_bounds (start : DateTime)
    (prs : List (RedditPost × StepRand)) (out : List RedditPost)
    (hstart : start.Valid) (hmin : MinutesValid prs)
    (hout : schedulePosts start prs = some out) :
    ∀ p ∈ out, ∃ t : DateTime, p.timestamp = some t ∧
      start.startOfDay.toSec ≤ t.toSec ∧
      t.toSec < start.startOfDay.toSec + 7 * 24 * 60 * 60 := by
  intro p hp
  have hop := schedulePosts_perm start prs out hout
  have hpc : p ∈ (schedulePostsCore start prs).2 := hop.mem_iff.mp hp
  have hshape := foldl_scheduleStep_preserve start
    (fun s => ∀ p ∈ s.2, TsShape start p) (scheduleStep_TsShape start) prs
    (SchedState.initial, []) (fun q hq => absurd hq (List.not_mem_nil q))
    p hpc
  obtain ⟨t, hts, ⟨d, hd⟩, hhour, hsec⟩ := hshape
  have hminute := foldl_minute_lt start prs SchedState.initial [] hmin
    (fun q hq => absurd hq (List.not_mem_nil q)) p hpc t hts
  have hdlt : d.val < 7 := d.isLt
  have hh : t.hour ≤ 19 := by rcases hhour with h | h | h <;> omega
  have hs2 : t.second < 60 := by rw [hsec]; exact hstart.2.2
  refine ⟨t, hts, ?_, ?_⟩
  · simp only [DateTime.toSec, DateTime.startOfDay]
    omega
  · simp only [DateTime.toSec, DateTime.startOfDay]
    omega

-- C4 witness: the amended theorem applied to the concrete run above.
unseal List.merge List.mergeSort in
theorem claim_C4_week_bounds_witness :
    ∃ t : DateTime,
      ({ samplePostA with timestamp := some (⟨0, 7, 0, 0⟩ : DateTime) } :
        RedditPost).timestamp = some t ∧
      sampleStart.startOfDay.toSec ≤ t.toSec ∧
      t.toSec < sampleStart.startOfDay.toSec + 7 * 24 * 60 * 60 :=
  claim_C4_week_bounds sampleStart [(samplePostA, sampleRand)] sampleOutA
    (by decide) (by decide) (by decide)
    { samplePostA with timestamp := some ⟨0, 7, 0, 0⟩ } (by decide)

/-- C5: `schedule_posts` never writes the per-day map `self.schedule`, so on
a scheduler whose map is still the seven empty lists of the constructor,
`validate_schedule` reports `(True, [])` and the summary total is 0,
whatever batch was scheduled. -/
theorem claim_C5_schedule_map_untouched (w : WeekScheduler)
    (hsch : w.schedule = fun _ => [])
    (prs : List (RedditPost × StepRand)) :
    (w.schedulePostsM prs).2.schedule = w.schedule ∧
    (w.schedulePostsM prs).2.validateSchedule = (true, []) ∧
    (w.schedulePostsM prs).2.summaryTotal = 0 := by
  obtain ⟨sd, sch⟩ := w
  simp only at hsch
  subst hsch
  exact ⟨rfl, rfl, rfl⟩

-- C5 witness: a freshly constructed scheduler with an arbitrary batch.
theorem claim_C5_schedule_map_untouched_witness :
    (sampleScheduler.schedulePostsM [(samplePostA, sampleRand)]).2.schedule =
      sampleScheduler.schedule ∧
    (sampleScheduler.schedulePostsM
      [(samplePostA, sampleRand)]).2.validateSchedule = (true, []) ∧
    (sampleScheduler.schedulePostsM
      [(samplePostA, sampleRand)]).2.summaryTotal = 0 :=
  claim_C5_schedule_map_untouched sampleScheduler rfl
    [(samplePostA, sampleRand)]

/-- C6: when the post's forum is already used on all 7 days (and its topic is
fresh), the step falls back to the day with the fewest used forums — ties
broken by the LOWEST day index (first minimum in order 0..6) — the post is
still appended to the output and its topic is marked used. -/
theorem claim_C6_fallback (start : DateTime) (st : SchedState)
    (acc : List RedditPost) (p : RedditPost) (r : StepRand)
    (hk : p.keyword_id ∉ st.usedKeywords)
    (hall : ∀ d : Fin 7, p.subreddit ∈ st.dailySubreddits d) :
    scheduleStep start (st, acc) (p, r) =
      placePost start st acc p (minConflictDay st.dailySubreddits)
        r.fmins r.fslot ∧
    (∀ d : Fin 7,
      (st.dailySubreddits (minConflictDay st.dailySubreddits)).card ≤
        (st.dailySubreddits d).card) ∧
    (∀ d : Fin 7, d < minConflictDay st.dailySubreddits →
      (st.dailySubreddits (minConflictDay st.dailySubreddits)).card <
        (st.dailySubreddits d).card) ∧
    (scheduleStep start (st, acc) (p, r)).2 =
      acc ++ [{ p with timestamp := some (chooseTime start (minConflictDay st.dailySubreddits) r.fmins r.fslot) }] ∧
    p.keyword_id ∈ (scheduleStep start (st, acc) (p, r)).1.usedKeywords := by
  have hf := findFreeDay_none_of_all st.dailySubreddits p.subreddit
    r.attempts hall
  have heq := scheduleStep_of_find_none start st acc p r hk hf
  refine ⟨heq, minConflictDay_le st.dailySubreddits,
    fun d hd => minConflictDay_first st.dailySubreddits d hd, ?_, ?_⟩
  · rw [heq]
    rfl
  · rw [scheduleStep_usedKeywords]
    exact Finset.mem_insert_self _ _

-- C6 witness: a state with subreddit rA used on every day.
theorem claim_C6_fallback_witness :
    scheduleStep sampleStart (sampleFullState, []) (samplePostA, sampleRand) =
      placePost sampleStart sampleFullState [] samplePostA
        (minConflictDay sampleFullState.dailySubreddits)
        sampleRand.fmins sampleRand.fslot ∧
    (∀ d : Fin 7,
      (sampleFullState.dailySubreddits
        (minConflictDay sampleFullState.dailySubreddits)).card ≤
        (sampleFullState.dailySubreddits d).card) ∧
    (∀ d : Fin 7, d < minConflictDay sampleFullState.dailySubreddits →
      (sampleFullState.dailySubreddits
        (minConflictDay sampleFullState.dailySubreddits)).card <
        (sampleFullState.dailySubreddits d).card) ∧
    (scheduleStep sampleStart (sampleFullState, [])
      (samplePostA, sampleRand)).2 =
      [] ++ [{ samplePostA with timestamp := some (chooseTime sampleStart (minConflictDay sampleFullState.dailySubreddits) sampleRand.fmins sampleRand.fslot) }] ∧
    samplePostA.keyword_id ∈ (scheduleStep sampleStart (sampleFullState, [])
      (samplePostA, sampleRand)).1.usedKeywords :=
  claim_C6_fallback sampleStart sampleFullState [] samplePostA sampleRand
    (by decide) (by decide)

/-- C7: every post returned by `schedule_posts` carries a timestamp, and the
returned sequence is non-decreasing in the timestamp sort key. -/
theorem claim_C7_sorted (start : DateTime)
    (prs : List (RedditPost × StepRand)) (out : List RedditPost)
    (hout : schedulePosts start prs = some out) :
    (∀ p ∈ out, p.timestamp ≠ none) ∧
    out.Pairwise fun a b => tsKey a ≤ tsKey b := by
  constructor
  · intro p hp
    have hpc : p ∈ (schedulePostsCore start prs).2 :=
      (schedulePosts_perm start prs out hout).mem_iff.mp hp
    exact Option.isSome_iff_ne_none.mp (schedulePostsCore_isSome start prs p hpc)
  · exact schedulePosts_sorted start prs out hout

-- C7 witness: the concrete two-post run.
unseal List.merge List.mergeSort in
theorem claim_C7_sorted_witness :
    (∀ p ∈ sampleOutAB, p.timestamp ≠ none) ∧
    sampleOutAB.Pairwise fun a b => tsKey a ≤ tsKey b :=
  claim_C7_sorted sampleStart
    [(samplePostA, sampleRand), (samplePostB, sampleRand)] sampleOutAB
    (by decide)

/-- C8: when no start date is supplied, the anchor is the upcoming Monday at
09:00:00 — strictly in the future, at most 7 days out — and when today is
already a Monday the anchor is the Monday seven days out, not today. -/
theorem claim_C8_default_anchor (today : DateTime) :
    (WeekScheduler.make none today).start_date.weekday = 0 ∧
    (WeekScheduler.make none today).start_date.hour = 9 ∧
    (WeekScheduler.make none today).start_date.minute = 0 ∧
    (WeekScheduler.make none today).start_date.second = 0 ∧
    today.days < (WeekScheduler.make none today).start_date.days ∧
    (WeekScheduler.make none today).start_date.days ≤ today.days + 7 ∧
    (today.weekday = 0 →
      (WeekScheduler.make none today).start_date.days = today.days + 7) := by
  simp only [WeekScheduler.make, nextMondayStart, DateTime.weekday,
    DateTime.addDays, DateTime.replaceHMS]
  by_cases h : (7 - today.days % 7) % 7 = 0 <;> simp [h] <;> omega

-- C8 witness: a Monday and a Thursday.
theorem claim_C8_default_anchor_witness :
    (WeekScheduler.make none ⟨0, 10, 30, 0⟩).start_date.days = 0 + 7 ∧
    (WeekScheduler.make none ⟨3, 10, 30, 0⟩).start_date.weekday = 0 ∧
    (WeekScheduler.make none ⟨3, 10, 30, 0⟩).start_date.days ≤ 3 + 7 :=
  ⟨(claim_C8_default_anchor ⟨0, 10, 30, 0⟩).2.2.2.2.2.2 (by decide),
   (claim_C8_default_anchor ⟨3, 10, 30, 0⟩).1,
   (claim_C8_default_anchor ⟨3, 10, 30, 0⟩).2.2.2.2.2.1⟩

/-- C9: `schedule_posts` never fails on a well-formed run — the final
parse-and-sort always succeeds (`isSome`) whatever the batch, and the empty
batch yields the empty output, not an error. -/
theorem claim_C9_total (start : DateTime)
    (prs : List (RedditPost × StepRand)) :
    (schedulePosts start prs).isSome ∧
    schedulePosts start [] = some [] := by
  constructor
  · rw [schedulePosts_eq]
    rfl
  · rw [schedulePosts_eq]
    simp [schedulePostsCore]

end RedditScheduler
